import Mathlib

set_option maxRecDepth 100000
set_option maxHeartbeats 1000000

/-! Verification of the lead-finder pipeline in `app.py`.

Shallow-embedding conventions used throughout this file:

* Python strings are Lean `String`s; `str.lower`, `str.strip`,
  `str.endswith`, `in` (substring test) and `str.replace` are
  re-implemented below for the ASCII fragment the program exercises.
* `urllib.parse.urlsplit` / `urlparse` / `urljoin` are re-implemented after
  CPython's `Lib/urllib/parse.py`.  A `ValueError` raised by the library is
  modelled as `none`; bracketed (IPv6) authorities are conservatively
  treated as a parse failure and the non-ASCII NFKC netloc check is outside
  the model.
* Network requests, DNS lookups, the HTML parser (BeautifulSoup), the
  SQLite cache and wall-clock time are external effects: each embedded
  function receives, as explicit arguments, the data its Python
  counterpart would have obtained from them.
* Timestamps (Python floats produced by `time.time()`) are modelled as
  integers; Python truthiness of a float is `(¬ = 0)`.
-/

/-- Python `str.lower()` restricted to ASCII case mapping. -/
def pyLower (s : String) : String := String.mk (s.data.map Char.toLower)

/-- Drop characters satisfying `p` from both ends of a character list. -/
def pyStripChars (s : List Char) (p : Char → Bool) : List Char :=
  ((s.dropWhile p).reverse.dropWhile p).reverse

/-- The whitespace characters stripped by Python `str.strip()` (ASCII part). -/
def isPyWhitespace (c : Char) : Bool :=
  c = ' ' || c = '\t' || c = '\n' || c = '\r' || c = '\x0b' || c = '\x0c'

/-- Python `str.strip()` (ASCII whitespace). -/
def pyStrip (s : String) : String := String.mk (pyStripChars s.data isPyWhitespace)

/-- Python `s.endswith(suffix)`. -/
def strEndsWith (s suffix : String) : Bool := suffix.data.isSuffixOf s.data

/-- Helper for the Python substring test `pat in s`. -/
def strContainsSub : List Char → List Char → Bool
  | [], pat => pat.isEmpty
  | c :: rest, pat => pat.isPrefixOf (c :: rest) || strContainsSub rest pat

/-- Python substring test `pat in s`. -/
def strContains (s pat : String) : Bool := strContainsSub s.data pat.data

/-- Split a character list at the first occurrence of `c`; `none` when `c`
does not occur (Python `str.find` returning `-1` / `str.split(c, 1)`). -/
def splitAtFirst (c : Char) : List Char → Option (List Char × List Char)
  | [] => none
  | x :: xs =>
    if x = c then some ([], xs)
    else
      match splitAtFirst c xs with
      | some (pre, post) => some (x :: pre, post)
      | none => none

/-! The model of `urllib.parse` (CPython `Lib/urllib/parse.py`). -/

/-- WHATWG C0-control-or-space characters, left-stripped from URLs. -/
def isC0ControlOrSpace (c : Char) : Bool := c.val ≤ 0x20

/-- The unsafe bytes removed from URLs before parsing (tab, CR, LF). -/
def isUnsafeUrlChar (c : Char) : Bool := c = '\t' || c = '\r' || c = '\n'

/-- Characters allowed in a URL scheme after the initial letter. -/
def schemeChars : List Char :=
  "abcdefghijklmnopqrstuvwxyzABCDEFGHIJKLMNOPQRSTUVWXYZ0123456789+-.".data

/-- Result of `urlsplit`: scheme, netloc, path, query, fragment. -/
structure UrlSplit where
  scheme : String
  netloc : String
  path : String
  query : String
  fragment : String
deriving DecidableEq

/-- Model of `urllib.parse.urlsplit` (with `allow_fragments=True`).
`none` models a raised `ValueError`; any bracketed authority is
conservatively treated as a failure (see the header note). -/
def urlsplitD (url : String) (defaultScheme : String) : Option UrlSplit :=
  let u0 := (url.data.dropWhile isC0ControlOrSpace).filter (fun c => !(isUnsafeUrlChar c))
  let ds := (pyStripChars defaultScheme.data isC0ControlOrSpace).filter
      (fun c => !(isUnsafeUrlChar c))
  let sr :=
    match splitAtFirst ':' u0 with
    | some (pre, post) =>
      if !pre.isEmpty && (pre.headD ' ').isAlpha && pre.all (fun c => schemeChars.contains c) then
        (pre.map Char.toLower, post)
      else (ds, u0)
    | none => (ds, u0)
  let nr :=
    if sr.2.take 2 = ['/', '/'] then
      let r := sr.2.drop 2
      (r.takeWhile (fun c => !(c == '/') && !(c == '?') && !(c == '#')),
       r.dropWhile (fun c => !(c == '/') && !(c == '?') && !(c == '#')))
    else ([], sr.2)
  if nr.1.contains '[' || nr.1.contains ']' then none
  else
    let fr :=
      match splitAtFirst '#' nr.2 with
      | some (pre, post) => (pre, post)
      | none => (nr.2, [])
    let qr :=
      match splitAtFirst '?' fr.1 with
      | some (pre, post) => (pre, post)
      | none => (fr.1, [])
    some ⟨String.mk sr.1, String.mk nr.1, String.mk qr.1, String.mk qr.2, String.mk fr.2⟩

/-- Result of `urlparse`: `urlsplit` plus the params component. -/
structure UrlParse where
  scheme : String
  netloc : String
  path : String
  params : String
  query : String
  fragment : String
deriving DecidableEq

/-- Schemes for which `urlparse` splits `;params` off the path. -/
def usesParams : List String :=
  ["", "ftp", "hdl", "prospero", "http", "imap", "https", "shttp", "rtsp",
   "rtspu", "sip", "sips", "mms", "sftp", "tel"]

/-- Index of the last occurrence of `c` in `s` (Python `str.rfind`). -/
def lastIdxOf (c : Char) (s : List Char) : Option Nat :=
  match s.reverse.findIdx? (fun x => x == c) with
  | some i => some (s.length - 1 - i)
  | none => none

/-- Index of the first occurrence of `c` in `s` at position `start` or later
(Python `str.find(c, start)`). -/
def idxOfFrom (c : Char) (s : List Char) (start : Nat) : Option Nat :=
  match (s.drop start).findIdx? (fun x => x == c) with
  | some i => some (start + i)
  | none => none

/-- Model of `urllib.parse._splitparams`. -/
def splitParams (p : List Char) : List Char × List Char :=
  if p.contains '/' then
    match lastIdxOf '/' p with
    | some j =>
      match idxOfFrom ';' p j with
      | some i => (p.take i, p.drop (i + 1))
      | none => (p, [])
    | none => (p, [])
  else
    match splitAtFirst ';' p with
    | some (pre, post) => (pre, post)
    | none => (p, [])

/-- Model of `urllib.parse.urlparse`. -/
def urlparseD (url : String) (defaultScheme : String) : Option UrlParse :=
  match urlsplitD url defaultScheme with
  | none => none
  | some s =>
    if usesParams.contains s.scheme && s.path.data.contains ';' then
      let pp := splitParams s.path.data
      some ⟨s.scheme, s.netloc, String.mk pp.1, String.mk pp.2, s.query, s.fragment⟩
    else some ⟨s.scheme, s.netloc, s.path, "", s.query, s.fragment⟩

/-- Model of `urllib.parse.urlunsplit`. -/
def urlunsplit (scheme netloc url query fragment : String) : String :=
  let u1 :=
    if netloc ≠ "" ∨ (url ≠ "" ∧ url.data.take 2 = ['/', '/']) then
      "//" ++ netloc ++ (if url ≠ "" ∧ url.data.take 1 ≠ ['/'] then "/" ++ url else url)
    else url
  let u2 := if scheme ≠ "" then scheme ++ ":" ++ u1 else u1
  let u3 := if query ≠ "" then u2 ++ "?" ++ query else u2
  if fragment ≠ "" then u3 ++ "#" ++ fragment else u3

/-- Model of `urllib.parse.urlunparse`. -/
def urlunparse (scheme netloc path params query fragment : String) : String :=
  urlunsplit scheme netloc (if params ≠ "" then path ++ ";" ++ params else path) query fragment

/-- Schemes that support relative references (`uses_relative`). -/
def usesRelative : List String :=
  ["", "ftp", "http", "gopher", "nntp", "imap", "wais", "file", "https",
   "shttp", "mms", "prospero", "rtsp", "rtspu", "sftp", "svn", "svn+ssh",
   "ws", "wss"]

/-- Schemes that use a network location (`uses_netloc`). -/
def usesNetloc : List String :=
  ["", "ftp", "http", "gopher", "nntp", "telnet", "imap", "wais", "file",
   "mms", "https", "shttp", "snews", "prospero", "rtsp", "rtspu", "rsync",
   "svn", "svn+ssh", "sftp", "nfs", "git", "git+ssh", "ws", "wss",
   "itms-services"]

/-- Helper for `splitOnChar`: `acc` holds the current field reversed. -/
def splitOnCharAux (c : Char) : List Char → List Char → List String
  | [], acc => [String.mk acc.reverse]
  | x :: xs, acc =>
    if x = c then String.mk acc.reverse :: splitOnCharAux c xs []
    else splitOnCharAux c xs (x :: acc)

/-- Python `str.split(sep)` for a one-character separator, on char lists. -/
def splitOnChar (c : Char) (s : List Char) : List String :=
  splitOnCharAux c s []

/-- Python `sep.join(parts)` for a one-character separator. -/
def joinWithChar (c : Char) : List String → String
  | [] => ""
  | [a] => a
  | a :: rest => a ++ String.mk [c] ++ joinWithChar c rest

/-- Helper for `segments[1:-1] = filter(None, segments[1:-1])`: drops empty
strings from a list except for its last element. -/
def filterMidAux : List String → List String
  | [] => []
  | [b] => [b]
  | b :: rest => if b = "" then filterMidAux rest else b :: filterMidAux rest

/-- Apply `filterMidAux` to everything after the first element. -/
def filterMiddle : List String → List String
  | [] => []
  | [a] => [a]
  | a :: rest => a :: filterMidAux rest

/-- The dot-segment resolution loop of `urljoin`. -/
def resolveSegs (acc : List String) : List String → List String
  | [] => acc
  | s :: rest =>
    if s = ".." then resolveSegs acc.dropLast rest
    else if s = "." then resolveSegs acc rest
    else resolveSegs (acc ++ [s]) rest

/-- Model of `urllib.parse.urljoin`; `none` models a raised `ValueError`. -/
def urljoinD (base url : String) : Option String :=
  if base = "" then some url
  else if url = "" then some base
  else
    match urlparseD base "" with
    | none => none
    | some b =>
      match urlparseD url b.scheme with
      | none => none
      | some u =>
        if u.scheme ≠ b.scheme ∨ ¬ (usesRelative.contains u.scheme = true) then some url
        else if usesNetloc.contains u.scheme = true ∧ u.netloc ≠ "" then
          some (urlunparse u.scheme u.netloc u.path u.params u.query u.fragment)
        else
          let netloc := if usesNetloc.contains u.scheme = true then b.netloc else u.netloc
          if u.path = "" ∧ u.params = "" then
            some (urlunparse u.scheme netloc b.path b.params
              (if u.query = "" then b.query else u.query) u.fragment)
          else
            let baseParts0 := splitOnChar '/' b.path.data
            let baseParts :=
              if baseParts0.getLast? = some "" then baseParts0 else baseParts0.dropLast
            let segments :=
              if u.path.data.take 1 = ['/'] then splitOnChar '/' u.path.data
              else filterMiddle (baseParts ++ splitOnChar '/' u.path.data)
            let resolved := resolveSegs [] segments
            let resolved2 :=
              if segments.getLast? = some "." ∨ segments.getLast? = some ".." then
                resolved ++ [""]
              else resolved
            let joined := joinWithChar '/' resolved2
            some (urlunparse u.scheme netloc (if joined = "" then "/" else joined)
              u.params u.query u.fragment)

/-! The repository's own URL helpers (`app.py` lines 158-171). -/

/-- `app.py` `normalize_url`: prefix `http://` when the URL has no scheme. -/
def normalize_url (u : String) : String :=
  match urlparseD u "" with
  | some p => if p.scheme = "" then "http://" ++ u else u
  | none => u

/-- `app.py` `domain`: lowercased netloc of the URL, `""` on a parse error. -/
def domain (url : String) : String :=
  match urlparseD url "" with
  | some p => pyLower p.netloc
  | none => ""

/-! Search hits and `merge_and_dedupe` (`app.py` lines 463-486). -/

/-- One search result as produced by the engine fetchers. -/
structure Hit where
  title : String
  link : String
  engine : String
deriving DecidableEq

/-- The deduplication key of a hit: `(p.scheme, p.netloc.lower(), p.path)` of
`urlparse(normalize_url(h.link))`; `none` models the `except: continue`. -/
def hitKey (h : Hit) : Option (String × String × String) :=
  match urlparseD (normalize_url h.link) "" with
  | some p => some (p.scheme, pyLower p.netloc, p.path)
  | none => none

/-- The engine precedence tuple `prefer_order`. -/
def preferOrderL : List String := ["duckduckgo", "bing", "google"]

/-- First-match lookup in the `seen_key` association list (Python dict read). -/
def lookupA (k : String × String × String) : List ((String × String × String) × Hit) → Option Hit
  | [] => none
  | (k', h) :: rest => if k' = k then some h else lookupA k rest

/-- Replace the value bound to `k` in the `seen_key` association list
(Python dict write on an existing key). -/
def updateA (k : String × String × String) (h : Hit) :
    List ((String × String × String) × Hit) → List ((String × String × String) × Hit)
  | [] => []
  | (k', h') :: rest => if k' = k then (k', h) :: rest else (k', h') :: updateA k h rest

/-- The in-place replacement loop over `ordered` (lines 480-485): overwrite
the first element whose recomputed key equals `k`, then stop. -/
def replaceOrdered (k : String × String × String) (h : Hit) : List Hit → List Hit
  | [] => []
  | it :: rest => if hitKey it = some k then h :: rest else it :: replaceOrdered k h rest

/-- One iteration of the `merge_and_dedupe` loop body on the state
`(seen_key, ordered)`. -/
def mergeStep (st : List ((String × String × String) × Hit) × List Hit) (h : Hit) :
    List ((String × String × String) × Hit) × List Hit :=
  match hitKey h with
  | none => st
  | some k =>
    match lookupA k st.1 with
    | none => (st.1 ++ [(k, h)], st.2 ++ [h])
    | some prev =>
      if h.engine ∈ preferOrderL ∧ prev.engine ∈ preferOrderL ∧
          preferOrderL.indexOf h.engine < preferOrderL.indexOf prev.engine then
        (updateA k h st.1, replaceOrdered k h st.2)
      else st

/-- `app.py` `merge_and_dedupe` with the default `prefer_order`. -/
def merge_and_dedupe (hits : List Hit) : List Hit :=
  (hits.foldl mergeStep ([], [])).2

/-! A per-key characterization of `merge_and_dedupe`, proved equal to it
below and used to state the precedence claims. -/

/-- Helper for `dedupF`: `seen` collects the values already emitted. -/
def dedupFAux {α : Type} [DecidableEq α] (seen : List α) : List α → List α
  | [] => []
  | x :: xs => if x ∈ seen then dedupFAux seen xs else x :: dedupFAux (x :: seen) xs

/-- Remove duplicates from a list, keeping first occurrences. -/
def dedupF {α : Type} [DecidableEq α] (l : List α) : List α := dedupFAux [] l

/-- The distinct keys of a hit list, in order of first appearance. -/
def keyList (hits : List Hit) : List (String × String × String) :=
  dedupF (hits.filterMap hitKey)

/-- All hits sharing the key `k`, in input order. -/
def hitsFor (hits : List Hit) (k : String × String × String) : List Hit :=
  hits.filter (fun h => decide (hitKey h = some k))

/-- The replacement rule applied to a kept hit `prev` and a later duplicate
`h` (lines 477-479): `h` wins only when both engines are in `prefer_order`
and `h`'s engine is strictly earlier in it. -/
def mergeKeep (prev h : Hit) : Hit :=
  if h.engine ∈ preferOrderL ∧ prev.engine ∈ preferOrderL ∧
      preferOrderL.indexOf h.engine < preferOrderL.indexOf prev.engine then h
  else prev

/-- Placeholder hit used to totalize `keptFor` (never reached on keys of the
list). -/
def defaultHit : Hit := ⟨"", "", ""⟩

/-- The hit kept for key `k`: the fold of the replacement rule over all hits
with that key. -/
def keptFor (hits : List Hit) (k : String × String × String) : Hit :=
  match hitsFor hits k with
  | [] => defaultHit
  | h :: t => t.foldl mergeKeep h

/-- Per-key form of the merge: first-appearance key order, kept hit per key. -/
def mergeByKey (hits : List Hit) : List Hit :=
  (keyList hits).map (keptFor hits)

/-- The replacement rule as the specification words it: a later duplicate
wins exactly when its engine is strictly earlier in the precedence list. -/
def specKeep (prev h : Hit) : Hit :=
  if preferOrderL.indexOf h.engine < preferOrderL.indexOf prev.engine then h
  else prev

/-- The hit the specification keeps for key `k`. -/
def keptForSpec (hits : List Hit) (k : String × String × String) : Hit :=
  match hitsFor hits k with
  | [] => defaultHit
  | h :: t => t.foldl specKeep h

/-- Merge as the specification describes it: group hits by normalized key,
first occurrence fixes the position, later duplicates replace the kept hit
exactly when strictly earlier in the precedence order. -/
def mergeSpec (hits : List Hit) : List Hit :=
  (keyList hits).map (keptForSpec hits)

/-! Model of `EMAIL_REGEX` (line 46), its `findall` scan and `fullmatch`.
The pattern is
`\b[A-Za-z0-9._%+-]+@[A-Za-z0-9.-]+\.[A-Za-z]\x7b2,\x7d\b`; word
characters are modelled as ASCII word characters. -/

/-- ASCII regex word character (`\w`). -/
def isWordChar (c : Char) : Bool := c.isAlpha || c.isDigit || c = '_'

/-- Character class of the local part, `[A-Za-z0-9._%+-]`. -/
def isLocalChar (c : Char) : Bool :=
  c.isAlpha || c.isDigit || c = '.' || c = '_' || c = '%' || c = '+' || c = '-'

/-- Character class of the domain part, `[A-Za-z0-9.-]`. -/
def isDomainChar (c : Char) : Bool := c.isAlpha || c.isDigit || c = '.' || c = '-'

/-- Character class of the TLD, `[A-Za-z]`. -/
def isTldChar (c : Char) : Bool := c.isAlpha

/-- Wordness of an optional character; positions outside the text count as
non-word. -/
def isWordOpt : Option Char → Bool
  | none => false
  | some c => isWordChar c

/-- A `\b` word boundary between two adjacent (optional) characters. -/
def isBoundary (a b : Option Char) : Bool := isWordOpt a != isWordOpt b

/-- Greedy-with-backtracking search for `[A-Za-z]\x7b2,\x7d\b` in `t`
(the region after the dot), trying length `k` first, then shorter. -/
def tryTld (t : List Char) : Nat → Option Nat
  | 0 => none
  | 1 => none
  | k + 2 => if isBoundary t[k + 1]? t[k + 2]? then some (k + 2) else tryTld t (k + 1)

/-- Greedy-with-backtracking search for `[A-Za-z0-9.-]+\.` in `r` (the
region after `@`), trying the domain length `n` first, then shorter;
returns the domain length together with the TLD length. -/
def tryDom (r : List Char) : Nat → Option (Nat × Nat)
  | 0 => none
  | n + 1 =>
    if r[n + 1]? = some '.' then
      match tryTld (r.drop (n + 2)) ((r.drop (n + 2)).takeWhile isTldChar).length with
      | some k => some (n + 1, k)
      | none => tryDom r n
    else tryDom r n

/-- Length of the regex match starting exactly at the head of `s`, where
`prev` is the character before that position; `none` when no match starts
here. -/
def matchLen (prev : Option Char) (s : List Char) : Option Nat :=
  if isBoundary prev s.head? then
    let l := (s.takeWhile isLocalChar).length
    if l = 0 then none
    else if s[l]? = some '@' then
      match tryDom (s.drop (l + 1)) ((s.drop (l + 1)).takeWhile isDomainChar).length with
      | some nk => some (l + 1 + nk.1 + 1 + nk.2)
      | none => none
    else none
  else none

/-- The scanning loop of `re.findall`: try a match at every position, and
resume after the end of each successful match.  The fuel argument makes the
recursion structural; it is initialized to the text length and can never be
exhausted, because every step either consumes at least one character
(successful matches are nonempty) or terminates. -/
def emailScanFuel : Nat → Option Char → List Char → List (List Char)
  | 0, _, _ => []
  | _ + 1, _, [] => []
  | fuel + 1, prev, c :: cs =>
    match matchLen prev (c :: cs) with
    | some len =>
      (c :: cs).take len :: emailScanFuel fuel ((c :: cs).take len).getLast? ((c :: cs).drop len)
    | none => emailScanFuel fuel (some c) cs

/-- `EMAIL_REGEX.findall(text)`. -/
def emailFindall (text : String) : List String :=
  (emailScanFuel text.data.length none text.data).map String.mk

/-- Backtracking search used by `fullmatch`: a domain split such that the
whole rest of the string is consumed. -/
def fullTail (r : List Char) : Nat → Bool
  | 0 => false
  | n + 1 =>
    (r[n + 1]? = some '.' &&
      (let t := r.drop (n + 2)
       decide (2 ≤ t.length) && t.all isTldChar)) ||
    fullTail r n

/-- `EMAIL_REGEX.fullmatch(email)` as a Boolean. -/
def emailFullmatch (s : List Char) : Bool :=
  match s.head? with
  | none => false
  | some c0 =>
    isWordChar c0 &&
      (let l := (s.takeWhile isLocalChar).length
       decide (0 < l) && s[l]? = some '@' &&
         fullTail (s.drop (l + 1)) ((s.drop (l + 1)).takeWhile isDomainChar).length)

/-! Python `sorted` on strings (code-point lexicographic order). -/

/-- Lexicographic (code-point) order on character lists, Python `str` `<=`. -/
def lexLe : List Char → List Char → Bool
  | [], _ => true
  | _ :: _, [] => false
  | a :: as, b :: bs =>
    if a < b then true
    else if b < a then false
    else lexLe as bs

/-- Python string comparison `a <= b`. -/
def strLe (a b : String) : Bool := lexLe a.data b.data

/-- Insert into a `strLe`-sorted list, keeping order. -/
def insertS (x : String) : List String → List String
  | [] => [x]
  | y :: ys => if strLe x y then x :: y :: ys else y :: insertS x ys

/-- Python `sorted` on a list of strings (insertion sort; stable and
ascending, which determines the result uniquely on distinct elements). -/
def pySorted (l : List String) : List String := l.foldr insertS []

/-! Contact extraction (`app.py` lines 232-237) and email verification
(lines 276-299). -/

/-- The image extensions excluded from extracted emails. -/
def imageExts : List String := [".png", ".jpg", ".jpeg", ".gif", ".webp"]

/-- The filter in `extract_emails_from_text`:
`not e.lower().endswith((".png", ".jpg", ".jpeg", ".gif", ".webp"))`. -/
def keepEmail (e : String) : Bool :=
  !(imageExts.any (fun ext => strEndsWith (pyLower e) ext))

/-- `app.py` `extract_emails_from_text`: the deduplicated, sorted list of
regex matches that do not end in an image extension. -/
def extract_emails_from_text (text : String) : List String :=
  pySorted (dedupF ((emailFindall text).filter keepEmail))

/-- The function named `is_valid_email_syntax` in `app.py`: full-string
regex match of the email pattern. -/
def is_valid_email_format (email : String) : Bool := emailFullmatch email.data

/-- `app.py` `verify_email`.  `mx` is the oracle for `mx_lookup` (it already
absorbs an absent resolver and lookup failures, which return `False`). -/
def verify_email (mx : String → Bool) (email : String) (do_mx : Bool) : Bool × String :=
  if !(is_valid_email_format email) then (false, "")
  else if do_mx then
    match splitAtFirst '@' email.data with
    | some pp => (mx (pyLower (String.mk pp.2)), pyLower (String.mk pp.2))
    | none => (false, "")
  else (true, "")

/-- One iteration of the verification loop in `crawl_for_emails`
(lines 349-354): the accumulator is `(verified_emails, mx_domain)`. -/
def verifyFold (mx : String → Bool) (do_mx : Bool) (acc : List String × String)
    (e : String) : List String × String :=
  if (verify_email mx e do_mx).1 then
    (acc.1 ++ [e],
     if (verify_email mx e do_mx).2 ≠ "" then (verify_email mx e do_mx).2 else acc.2)
  else acc

/-- The verification tail of `crawl_for_emails` (lines 346-358): verify each
email, then return the sorted verified list (flag true) when any verified,
and the full unverified list (flag false) otherwise. -/
def crawl_verify (mx : String → Bool) (do_mx : Bool) (emails_list : List String)
    (phone : String) : List String × String × Bool × String :=
  let vr := emails_list.foldl (verifyFold mx do_mx) ([], "")
  if vr.1 ≠ [] then (pySorted vr.1, phone, true, vr.2)
  else (emails_list, phone, false, vr.2)

/-! The cache freshness tests and the read paths that use them
(`app.py` lines 51, 173-191, 242-256, 304-318).  A cache row is `none` when
the table has no row (or reading raised); network outcomes are
`none` for a raised exception and `some (ok, text)` for a response. -/

/-- `CACHE_TTL_SECONDS = 7 * 24 * 3600`. -/
def CACHE_TTL_SECONDS : Int := 7 * 24 * 3600

/-- The freshness test of `safe_get` (line 177):
`html and ts and (now - ts) < CACHE_TTL_SECONDS`. -/
def page_cache_valid : Option (String × Int) → Int → Bool
  | none, _ => false
  | some (html, ts), now =>
    html ≠ "" && ts ≠ 0 && decide (now - ts < CACHE_TTL_SECONDS)

/-- The freshness test of `fetch_robots_for_host` (line 245). -/
def robots_cache_valid : Option (String × Int) → Int → Bool
  | none, _ => false
  | some (content, ts), now =>
    content ≠ "" && ts ≠ 0 && decide (now - ts < CACHE_TTL_SECONDS)

/-- The freshness test of the contact-set cache read in `crawl_for_emails`
(line 308): the payload presence checks are `is not None`, so only the
timestamp must be truthy. -/
def emails_cache_valid : Option (List String × String × Int) → Int → Bool
  | none, _ => false
  | some (_, _, ts), now => ts ≠ 0 && decide (now - ts < CACHE_TTL_SECONDS)

/-- The text a network robots fetch yields:
`r.text if (r and r.ok and r.text) else ""`, and `""` when the request
raised. -/
def netText : Option (Bool × String) → String
  | none => ""
  | some (ok, text) => if ok && text ≠ "" then text else ""

/-- `app.py` `safe_get`, with the cache row and the network outcome as
inputs.  A fresh cache hit returns the fake response `R(ok=True, text=html)`
without touching the network; otherwise the network outcome is returned
as-is (`none` models a raised exception returning `None`). -/
def safe_get (cached : Option (String × Int)) (now : Int)
    (net : Option (Bool × String)) : Option (Bool × String) :=
  if page_cache_valid cached now then
    match cached with
    | some (html, _) => some (true, html)
    | none => none
  else net

/-- `app.py` `fetch_robots_for_host`: fresh nonempty cache content, else the
network text (cache writes are side effects outside the model). -/
def fetch_robots_for_host (cached : Option (String × Int)) (now : Int)
    (net : Option (Bool × String)) : String :=
  if robots_cache_valid cached now then
    match cached with
    | some (content, _) => content
    | none => ""
  else netText net

/-- `app.py` `is_allowed_by_robots`.  `canFetch content url` is the oracle
for `RobotFileParser.parse` followed by `can_fetch(UA_STR, url)`; `none`
models an exception anywhere in the guarded block, which the
`except` clause turns into `True`. -/
def is_allowed_by_robots (cached : Option (String × Int)) (now : Int)
    (net : Option (Bool × String)) (canFetch : String → String → Option Bool)
    (url : String) : Bool :=
  let content := fetch_robots_for_host cached now net
  if content = "" then true
  else
    match canFetch content url with
    | none => true
    | some b => b

/-! The domain filter (`app.py` lines 549-558), with the allow and deny
lists as explicit arguments (the script reads them from UI globals). -/

/-- `app.py` `is_allowed_by_lists`. -/
def is_allowed_by_lists (deny_domains allow_domains : List String) (url : String) : Bool :=
  let host := domain url
  if host = "" then false
  else if deny_domains.any (fun d => strEndsWith host d) then false
  else if allow_domains ≠ [] then allow_domains.any (fun d => strEndsWith host d)
  else true

/-! Company-name extraction (`app.py` lines 193-211).  The parsed page is
abstracted as the four `select_one` results, each an optional element with
an optional `content` attribute and its `get_text()` text; `none` for the
whole document models an exception inside the guarded block. -/

/-- One selected element: the `content` attribute and the element text. -/
structure PageElem where
  content : Option String
  text : String
deriving DecidableEq

/-- The four `select_one` results, in the order the code queries them. -/
structure PageDoc where
  ogSiteName : Option PageElem
  ogTitle : Option PageElem
  h1 : Option PageElem
  titleTag : Option PageElem
deriving DecidableEq

/-- `el.get("content") or el.get_text()`. -/
def elemText (el : PageElem) : String :=
  match el.content with
  | some c => if c ≠ "" then c else el.text
  | none => el.text

/-- The selector loop: first element whose stripped text is nonempty,
truncated to 120 characters. -/
def firstSelectorText : List (Option PageElem) → Option String
  | [] => none
  | none :: rest => firstSelectorText rest
  | some el :: rest =>
    if pyStrip (elemText el) ≠ "" then some ((pyStrip (elemText el)).take 120)
    else firstSelectorText rest

/-- Python `host.replace("www.", "")`: removes every (non-overlapping,
left-to-right) occurrence of `www.`. -/
def removeWWW : List Char → List Char
  | 'w' :: 'w' :: 'w' :: '.' :: rest => removeWWW rest
  | c :: rest => c :: removeWWW rest
  | [] => []

/-- `app.py` `extract_company_name`. -/
def extract_company_name (doc : Option PageDoc) (url : String) : String :=
  let fb := if domain url ≠ "" then String.mk (removeWWW (domain url).data) else ""
  match doc with
  | none => fb
  | some d =>
    match firstSelectorText [d.ogSiteName, d.ogTitle, d.h1, d.titleTag] with
    | some t => t
    | none => fb

/-- The same extractor as §4.4 of the specification words it (with the
amended fallback): the first non-empty trimmed candidate truncated to 120
characters, else the host with every `www.` occurrence removed. -/
def spec_company_name (doc : Option PageDoc) (url : String) : String :=
  let els : List (Option PageElem) :=
    match doc with
    | none => []
    | some d => [d.ogSiteName, d.ogTitle, d.h1, d.titleTag]
  let cands := els.filterMap (fun oe =>
    oe.bind (fun el =>
      if pyStrip (elemText el) = "" then none else some (pyStrip (elemText el))))
  match cands with
  | t :: _ => t.take 120
  | [] => if domain url = "" then "" else String.mk (removeWWW (domain url).data)

/-! Likely contact pages (`app.py` lines 217-230).  The anchors are the
href values BeautifulSoup would produce (a parse failure is the same as no
anchors).  Because `pages` is a Python `set`, the order of `list(pages)` is
not specified; it is modelled by an explicit enumeration argument that the
theorems constrain to be a permutation of the set contents. -/

/-- The href keywords tested by the anchor loop. -/
def contactKeys : List String := ["contact", "contact-us", "about", "team"]

/-- Whether an anchor href matches the keyword test. -/
def matchesContactKey (href : String) : Bool :=
  contactKeys.any (fun k => strContains (pyLower href) k)

/-- The anchor loop: resolve matching hrefs against the base URL; a raised
`ValueError` leaves the loop (keeping earlier additions) via the `except`. -/
def collectAnchorPages (base : String) : List String → List String
  | [] => []
  | href :: rest =>
    if matchesContactKey href then
      match urljoinD base href with
      | some u => u :: collectAnchorPages base rest
      | none => []
    else collectAnchorPages base rest

/-- The contents of the `pages` set: matching anchors (up to the first
resolution error) plus the three fixed fallback suffixes; `none` when
resolving a fallback suffix raises (uncaught in the Python code). -/
def likelyPagesSet (base : String) (anchors : List String) : Option (List String) :=
  match urljoinD base "/contact", urljoinD base "/contact-us", urljoinD base "/about" with
  | some f1, some f2, some f3 =>
    some (dedupF (collectAnchorPages base anchors ++ [f1, f2, f3]))
  | _, _, _ => none

/-- `app.py` `find_likely_contact_pages`: `list(pages)[:6]`, where `enum`
is the enumeration order of the set (see the section comment). -/
def find_likely_contact_pages (base : String) (anchors : List String)
    (enum : List String) : Option (List String) :=
  match likelyPagesSet base anchors with
  | some _ => some (enum.take 6)
  | none => none

/-! Lemmas about `dedupF`. -/

theorem mem_dedupFAux {α : Type} [DecidableEq α] (a : α) :
    ∀ (l seen : List α), a ∈ dedupFAux seen l ↔ a ∈ l ∧ a ∉ seen := by
  intro l
  induction l with
  | nil => intro seen; simp [dedupFAux]
  | cons x xs ih =>
    intro seen
    by_cases hx : x ∈ seen
    · rw [dedupFAux, if_pos hx, ih]
      simp only [List.mem_cons]
      constructor
      · rintro ⟨h1, h2⟩; exact ⟨Or.inr h1, h2⟩
      · rintro ⟨h1 | h1, h2⟩
        · subst h1; exact absurd hx h2
        · exact ⟨h1, h2⟩
    · rw [dedupFAux, if_neg hx]
      simp only [List.mem_cons, ih, List.mem_cons]
      constructor
      · rintro (rfl | ⟨h1, h2⟩)
        · exact ⟨Or.inl rfl, hx⟩
        · push_neg at h2
          exact ⟨Or.inr h1, h2.2⟩
      · rintro ⟨h1 | h1, h2⟩
        · exact Or.inl h1
        · by_cases hax : a = x
          · exact Or.inl hax
          · refine Or.inr ⟨h1, ?_⟩
            push_neg
            exact ⟨hax, h2⟩

theorem mem_dedupF {α : Type} [DecidableEq α] (a : α) (l : List α) :
    a ∈ dedupF l ↔ a ∈ l := by
  rw [dedupF, mem_dedupFAux]; simp

theorem nodup_dedupFAux {α : Type} [DecidableEq α] :
    ∀ (l seen : List α), (dedupFAux seen l).Nodup := by
  intro l
  induction l with
  | nil => intro seen; simp [dedupFAux]
  | cons x xs ih =>
    intro seen
    by_cases hx : x ∈ seen
    · rw [dedupFAux, if_pos hx]; exact ih seen
    · rw [dedupFAux, if_neg hx]
      rw [List.nodup_cons]
      refine ⟨fun hmem => ?_, ih _⟩
      rw [mem_dedupFAux] at hmem
      exact hmem.2 (List.mem_cons_self x seen)

theorem nodup_dedupF {α : Type} [DecidableEq α] (l : List α) : (dedupF l).Nodup :=
  nodup_dedupFAux l []

theorem dedupFAux_append_single {α : Type} [DecidableEq α] (a : α) :
    ∀ (l seen : List α), dedupFAux seen (l ++ [a]) =
      dedupFAux seen l ++ (if a ∈ seen ∨ a ∈ l then [] else [a]) := by
  intro l
  induction l with
  | nil =>
    intro seen
    by_cases h : a ∈ seen <;> simp [dedupFAux, h]
  | cons x xs ih =>
    intro seen
    by_cases hx : x ∈ seen
    · rw [List.cons_append, dedupFAux, if_pos hx, dedupFAux, if_pos hx, ih]
      have hiff : (a ∈ seen ∨ a ∈ xs) ↔ (a ∈ seen ∨ a ∈ x :: xs) := by
        simp only [List.mem_cons]
        constructor
        · tauto
        · rintro (h | rfl | h)
          · tauto
          · exact Or.inl hx
          · tauto
      simp only [hiff]
    · rw [List.cons_append, dedupFAux, if_neg hx, dedupFAux, if_neg hx, ih]
      have hiff : (a ∈ x :: seen ∨ a ∈ xs) ↔ (a ∈ seen ∨ a ∈ x :: xs) := by
        simp only [List.mem_cons]
        tauto
      simp only [hiff, List.cons_append]

theorem dedupF_append_single {α : Type} [DecidableEq α] (a : α) (l : List α) :
    dedupF (l ++ [a]) = dedupF l ++ (if a ∈ l then [] else [a]) := by
  rw [dedupF, dedupFAux_append_single, dedupF]
  simp

theorem dedupFAux_of_nodup {α : Type} [DecidableEq α] :
    ∀ (l seen : List α), l.Nodup → (∀ a ∈ l, a ∉ seen) → dedupFAux seen l = l := by
  intro l
  induction l with
  | nil => intro seen _ _; rfl
  | cons x xs ih =>
    intro seen hnd hdisj
    have hx : x ∉ seen := hdisj x (List.mem_cons_self _ _)
    rw [dedupFAux, if_neg hx]
    congr 1
    refine ih _ (List.nodup_cons.mp hnd).2 ?_
    intro a ha
    simp only [List.mem_cons]
    rintro (rfl | hmem)
    · exact (List.nodup_cons.mp hnd).1 ha
    · exact hdisj a (List.mem_cons_of_mem _ ha) hmem

theorem dedupF_of_nodup {α : Type} [DecidableEq α] {l : List α} (h : l.Nodup) :
    dedupF l = l :=
  dedupFAux_of_nodup l [] h (by simp)

/-! The refinement proof: `merge_and_dedupe` equals its per-key form
`mergeByKey`. -/

/-- The semantic contents of the `seen_key` dictionary after processing
`pre`. -/
def seenSpec (pre : List Hit) : List ((String × String × String) × Hit) :=
  (keyList pre).map (fun k => (k, keptFor pre k))

theorem hitsFor_append_single (pre : List Hit) (h : Hit) (k : String × String × String) :
    hitsFor (pre ++ [h]) k =
      hitsFor pre k ++ (if hitKey h = some k then [h] else []) := by
  unfold hitsFor
  have h1 : List.filter (fun x => decide (hitKey x = some k)) [h] =
      (if hitKey h = some k then [h] else []) := by
    by_cases hk : hitKey h = some k
    · simp [List.filter_cons, hk]
    · simp [List.filter_cons, hk]
  rw [List.filter_append, h1]

theorem keyList_mem_iff (pre : List Hit) (k : String × String × String) :
    k ∈ keyList pre ↔ hitsFor pre k ≠ [] := by
  rw [keyList, mem_dedupF, List.mem_filterMap]
  constructor
  · rintro ⟨h, hmem, hk⟩ hnil
    have hin : h ∈ hitsFor pre k := by
      rw [hitsFor, List.mem_filter]
      exact ⟨hmem, by simp [hk]⟩
    rw [hnil] at hin
    cases hin
  · intro hne
    rcases List.exists_mem_of_ne_nil _ hne with ⟨h, hmem⟩
    rw [hitsFor, List.mem_filter] at hmem
    exact ⟨h, hmem.1, by simpa using hmem.2⟩

theorem keyList_append_none {pre : List Hit} {h : Hit} (hk : hitKey h = none) :
    keyList (pre ++ [h]) = keyList pre := by
  unfold keyList
  rw [List.filterMap_append]
  simp [List.filterMap_cons, hk]

theorem keyList_append_mem {pre : List Hit} {h : Hit} {k : String × String × String}
    (hk : hitKey h = some k) (hmem : k ∈ keyList pre) :
    keyList (pre ++ [h]) = keyList pre := by
  unfold keyList
  rw [List.filterMap_append]
  have hfm : List.filterMap hitKey [h] = [k] := by simp [List.filterMap_cons, hk]
  rw [hfm, dedupF_append_single,
    if_pos ((mem_dedupF k (pre.filterMap hitKey)).mp hmem), List.append_nil]

theorem keyList_append_new {pre : List Hit} {h : Hit} {k : String × String × String}
    (hk : hitKey h = some k) (hmem : k ∉ keyList pre) :
    keyList (pre ++ [h]) = keyList pre ++ [k] := by
  unfold keyList
  rw [List.filterMap_append]
  have hfm : List.filterMap hitKey [h] = [k] := by simp [List.filterMap_cons, hk]
  rw [hfm, dedupF_append_single,
    if_neg (fun hc => hmem ((mem_dedupF k (pre.filterMap hitKey)).mpr hc))]

theorem foldl_mergeKeep_key {k : String × String × String} :
    ∀ (t : List Hit) (a : Hit), hitKey a = some k → (∀ x ∈ t, hitKey x = some k) →
      hitKey (t.foldl mergeKeep a) = some k := by
  intro t
  induction t with
  | nil => intro a ha _; exact ha
  | cons x xs ih =>
    intro a ha hall
    rw [List.foldl_cons]
    refine ih _ ?_ (fun y hy => hall y (List.mem_cons_of_mem _ hy))
    unfold mergeKeep
    split
    · exact hall x (List.mem_cons_self _ _)
    · exact ha

theorem mem_hitsFor_key {pre : List Hit} {k : String × String × String} {x : Hit}
    (hx : x ∈ hitsFor pre k) : hitKey x = some k := by
  rw [hitsFor, List.mem_filter] at hx
  simpa using hx.2

theorem hitKey_keptFor {pre : List Hit} {k : String × String × String}
    (hne : hitsFor pre k ≠ []) : hitKey (keptFor pre k) = some k := by
  unfold keptFor
  cases hfor : hitsFor pre k with
  | nil => exact absurd hfor hne
  | cons h t =>
    refine foldl_mergeKeep_key t h ?_ ?_
    · exact mem_hitsFor_key (hfor ▸ List.mem_cons_self h t)
    · intro x hx
      exact mem_hitsFor_key (hfor ▸ List.mem_cons_of_mem h hx)

theorem keptFor_append_new {pre : List Hit} {h : Hit} {k : String × String × String}
    (hk : hitKey h = some k) (hnil : hitsFor pre k = []) :
    keptFor (pre ++ [h]) k = h := by
  unfold keptFor
  rw [hitsFor_append_single, hnil, if_pos hk]
  simp

theorem keptFor_append_upd {pre : List Hit} {h : Hit} {k : String × String × String}
    (hk : hitKey h = some k) (hne : hitsFor pre k ≠ []) :
    keptFor (pre ++ [h]) k = mergeKeep (keptFor pre k) h := by
  unfold keptFor
  rw [hitsFor_append_single, if_pos hk]
  cases hfor : hitsFor pre k with
  | nil => exact absurd hfor hne
  | cons h0 t => simp [List.cons_append, List.foldl_append]

theorem keptFor_append_other {pre : List Hit} {h : Hit} {k : String × String × String}
    (hk : hitKey h ≠ some k) :
    keptFor (pre ++ [h]) k = keptFor pre k := by
  unfold keptFor
  rw [hitsFor_append_single, if_neg hk, List.append_nil]

theorem lookupA_map (k : String × String × String) :
    ∀ (ks : List (String × String × String)) (f : (String × String × String) → Hit),
      lookupA k (ks.map (fun k' => (k', f k'))) =
        if k ∈ ks then some (f k) else none := by
  intro ks
  induction ks with
  | nil => intro f; simp [lookupA]
  | cons k' ks ih =>
    intro f
    rw [List.map_cons, lookupA]
    by_cases hk : k' = k
    · subst hk; simp
    · rw [if_neg hk, ih]
      have hiff : (k ∈ k' :: ks) ↔ k ∈ ks := by
        rw [List.mem_cons]
        constructor
        · rintro (rfl | hm)
          · exact absurd rfl hk
          · exact hm
        · exact Or.inr
      simp only [hiff]

theorem updateA_map (k : String × String × String) (h : Hit) :
    ∀ (ks : List (String × String × String)) (f : (String × String × String) → Hit),
      ks.Nodup →
      updateA k h (ks.map (fun k' => (k', f k'))) =
        ks.map (fun k' => (k', if k' = k then h else f k')) := by
  intro ks
  induction ks with
  | nil => intro f _; rfl
  | cons k' ks ih =>
    intro f hnd
    rw [List.map_cons, updateA, List.map_cons]
    by_cases hk : k' = k
    · subst hk
      rw [if_pos rfl, if_pos rfl]
      congr 1
      refine (List.map_congr_left ?_).symm
      intro x hx
      have hne : x ≠ k' := fun hc => (List.nodup_cons.mp hnd).1 (hc ▸ hx)
      simp [hne]
    · rw [if_neg hk, if_neg hk, ih f (List.nodup_cons.mp hnd).2]

theorem replaceOrdered_map (k : String × String × String) (h : Hit) :
    ∀ (ks : List (String × String × String)) (f : (String × String × String) → Hit),
      ks.Nodup → (∀ k' ∈ ks, hitKey (f k') = some k') →
      replaceOrdered k h (ks.map f) =
        ks.map (fun k' => if k' = k then h else f k') := by
  intro ks
  induction ks with
  | nil => intro f _ _; rfl
  | cons k' ks ih =>
    intro f hnd hkeys
    rw [List.map_cons, replaceOrdered, List.map_cons]
    by_cases hk : k' = k
    · subst hk
      rw [if_pos (hkeys k' (List.mem_cons_self _ _)), if_pos rfl]
      congr 1
      refine (List.map_congr_left ?_).symm
      intro x hx
      have hne : x ≠ k' := fun hc => (List.nodup_cons.mp hnd).1 (hc ▸ hx)
      simp [hne]
    · have hcond : ¬ (hitKey (f k') = some k) := by
        rw [hkeys k' (List.mem_cons_self _ _)]
        exact fun hc => hk (Option.some.inj hc)
      rw [if_neg hcond, if_neg hk,
        ih f (List.nodup_cons.mp hnd).2 (fun x hx => hkeys x (List.mem_cons_of_mem _ hx))]

theorem nodup_keyList (pre : List Hit) : (keyList pre).Nodup := nodup_dedupF _

theorem step_spec (pre : List Hit) (h : Hit) :
    mergeStep (seenSpec pre, mergeByKey pre) h =
      (seenSpec (pre ++ [h]), mergeByKey (pre ++ [h])) := by
  cases hk : hitKey h with
  | none =>
    have hkl : keyList (pre ++ [h]) = keyList pre := keyList_append_none hk
    have hother : ∀ k' ∈ keyList pre, keptFor (pre ++ [h]) k' = keptFor pre k' := by
      intro k' _
      exact keptFor_append_other (by simp [hk])
    have hsp : seenSpec (pre ++ [h]) = seenSpec pre := by
      unfold seenSpec
      rw [hkl]
      exact List.map_congr_left (fun k' hk' => by rw [hother k' hk'])
    have hmb : mergeByKey (pre ++ [h]) = mergeByKey pre := by
      unfold mergeByKey
      rw [hkl]
      exact List.map_congr_left (fun k' hk' => hother k' hk')
    simp only [mergeStep, hk, hsp, hmb]
  | some k =>
    by_cases hmem : k ∈ keyList pre
    · have hne : hitsFor pre k ≠ [] := (keyList_mem_iff pre k).mp hmem
      have hlook : lookupA k (seenSpec pre) = some (keptFor pre k) := by
        unfold seenSpec
        rw [lookupA_map]
        exact if_pos hmem
      have hkl : keyList (pre ++ [h]) = keyList pre := keyList_append_mem hk hmem
      have hother : ∀ k', k' ≠ k → keptFor (pre ++ [h]) k' = keptFor pre k' := by
        intro k' hkk
        exact keptFor_append_other
          (by rw [hk]; exact fun hc => hkk (Option.some.inj hc).symm)
      simp only [mergeStep, hk, hlook]
      by_cases hcond : h.engine ∈ preferOrderL ∧ (keptFor pre k).engine ∈ preferOrderL ∧
          preferOrderL.indexOf h.engine < preferOrderL.indexOf (keptFor pre k).engine
      · rw [if_pos hcond]
        have hkept : keptFor (pre ++ [h]) k = h := by
          rw [keptFor_append_upd hk hne, mergeKeep, if_pos hcond]
        have hseen : updateA k h (seenSpec pre) = seenSpec (pre ++ [h]) := by
          unfold seenSpec
          rw [hkl, updateA_map k h _ _ (nodup_keyList pre)]
          refine List.map_congr_left ?_
          intro k' hk'
          by_cases hkk : k' = k
          · subst hkk; simp [hkept]
          · simp [hkk, hother k' hkk]
        have hord : replaceOrdered k h (mergeByKey pre) = mergeByKey (pre ++ [h]) := by
          unfold mergeByKey
          rw [hkl, replaceOrdered_map k h _ _ (nodup_keyList pre)
            (fun k' hk' => hitKey_keptFor ((keyList_mem_iff pre k').mp hk'))]
          refine List.map_congr_left ?_
          intro k' hk'
          by_cases hkk : k' = k
          · subst hkk; simp [hkept]
          · simp [hkk, hother k' hkk]
        rw [hseen, hord]
      · rw [if_neg hcond]
        have hkept : keptFor (pre ++ [h]) k = keptFor pre k := by
          rw [keptFor_append_upd hk hne, mergeKeep, if_neg hcond]
        have hall : ∀ k' ∈ keyList pre, keptFor (pre ++ [h]) k' = keptFor pre k' := by
          intro k' _
          by_cases hkk : k' = k
          · subst hkk; exact hkept
          · exact hother k' hkk
        have hsp : seenSpec (pre ++ [h]) = seenSpec pre := by
          unfold seenSpec
          rw [hkl]
          exact List.map_congr_left (fun k' hk' => by rw [hall k' hk'])
        have hmb : mergeByKey (pre ++ [h]) = mergeByKey pre := by
          unfold mergeByKey
          rw [hkl]
          exact List.map_congr_left (fun k' hk' => hall k' hk')
        rw [hsp, hmb]
    · have hnil : hitsFor pre k = [] := by
        by_contra hc
        exact hmem ((keyList_mem_iff pre k).mpr hc)
      have hlook : lookupA k (seenSpec pre) = none := by
        unfold seenSpec
        rw [lookupA_map]
        exact if_neg hmem
      simp only [mergeStep, hk, hlook]
      have hkl : keyList (pre ++ [h]) = keyList pre ++ [k] := keyList_append_new hk hmem
      have hkept : keptFor (pre ++ [h]) k = h := keptFor_append_new hk hnil
      have hother : ∀ k' ∈ keyList pre, keptFor (pre ++ [h]) k' = keptFor pre k' := by
        intro k' hk'
        apply keptFor_append_other
        rw [hk]
        intro hc
        have hkk := Option.some.inj hc
        subst hkk
        exact hmem hk'
      have hseen : seenSpec (pre ++ [h]) = seenSpec pre ++ [(k, h)] := by
        unfold seenSpec
        rw [hkl, List.map_append]
        have e1 : (keyList pre).map (fun k' => (k', keptFor (pre ++ [h]) k')) =
            (keyList pre).map (fun k' => (k', keptFor pre k')) :=
          List.map_congr_left (fun k' hk' => by rw [hother k' hk'])
        have e2 : ([k]).map (fun k' => (k', keptFor (pre ++ [h]) k')) = [(k, h)] := by
          rw [List.map_cons, List.map_nil, hkept]
        rw [e1, e2]
      have hord : mergeByKey (pre ++ [h]) = mergeByKey pre ++ [h] := by
        unfold mergeByKey
        rw [hkl, List.map_append]
        have e1 : (keyList pre).map (keptFor (pre ++ [h])) =
            (keyList pre).map (keptFor pre) :=
          List.map_congr_left (fun k' hk' => hother k' hk')
        have e2 : ([k]).map (keptFor (pre ++ [h])) = [h] := by
          rw [List.map_cons, List.map_nil, hkept]
        rw [e1, e2]
      rw [← hseen, ← hord]

theorem merge_loop : ∀ (rest pre : List Hit),
    (rest.foldl mergeStep (seenSpec pre, mergeByKey pre)).2 = mergeByKey (pre ++ rest) := by
  intro rest
  induction rest with
  | nil => intro pre; simp
  | cons h rest ih =>
    intro pre
    rw [List.foldl_cons, step_spec, ih (pre ++ [h]), List.append_assoc,
      List.singleton_append]

/-- `merge_and_dedupe` computes, for each distinct key in order of first
appearance, the fold of the replacement rule over the hits with that key. -/
theorem merge_eq_mergeByKey (hits : List Hit) :
    merge_and_dedupe hits = mergeByKey hits := by
  have h0 : (seenSpec [], mergeByKey []) =
      (([] : List ((String × String × String) × Hit)), ([] : List Hit)) := rfl
  rw [merge_and_dedupe, ← h0, merge_loop hits [], List.nil_append]

/-! Equivalence with the specification's replacement rule when every
engine is a member of the precedence tuple, and the two-hit precedence
lemmas. -/

theorem foldl_keep_eq : ∀ (t : List Hit) (a : Hit),
    a.engine ∈ preferOrderL → (∀ x ∈ t, x.engine ∈ preferOrderL) →
    t.foldl mergeKeep a = t.foldl specKeep a := by
  intro t
  induction t with
  | nil => intro a _ _; rfl
  | cons x xs ih =>
    intro a ha hall
    have hx : x.engine ∈ preferOrderL := hall x (List.mem_cons_self _ _)
    have hstep : mergeKeep a x = specKeep a x := by
      unfold mergeKeep specKeep
      have hiff : (x.engine ∈ preferOrderL ∧ a.engine ∈ preferOrderL ∧
          preferOrderL.indexOf x.engine < preferOrderL.indexOf a.engine) ↔
          (preferOrderL.indexOf x.engine < preferOrderL.indexOf a.engine) := by
        constructor
        · exact fun hc => hc.2.2
        · exact fun hc => ⟨hx, ha, hc⟩
      simp only [hiff]
    rw [List.foldl_cons, List.foldl_cons, hstep]
    refine ih (specKeep a x) ?_ (fun y hy => hall y (List.mem_cons_of_mem _ hy))
    unfold specKeep
    split
    · exact hx
    · exact ha

theorem keptFor_eq_spec {hits : List Hit} (hmem : ∀ x ∈ hits, x.engine ∈ preferOrderL)
    (k : String × String × String) : keptFor hits k = keptForSpec hits k := by
  unfold keptFor keptForSpec
  cases hfor : hitsFor hits k with
  | nil => rfl
  | cons h t =>
    have hsub : ∀ x ∈ hitsFor hits k, x.engine ∈ preferOrderL := by
      intro x hx
      rw [hitsFor, List.mem_filter] at hx
      exact hmem x hx.1
    exact foldl_keep_eq t h (hsub h (hfor ▸ List.mem_cons_self h t))
      (fun y hy => hsub y (hfor ▸ List.mem_cons_of_mem h hy))

theorem mergeByKey_eq_mergeSpec {hits : List Hit}
    (hmem : ∀ x ∈ hits, x.engine ∈ preferOrderL) : mergeByKey hits = mergeSpec hits := by
  unfold mergeByKey mergeSpec
  exact List.map_congr_left (fun k _ => keptFor_eq_spec hmem k)

theorem merge_pair_replace {a b : Hit} {k : String × String × String}
    (hka : hitKey a = some k) (hkb : hitKey b = some k)
    (hcond : b.engine ∈ preferOrderL ∧ a.engine ∈ preferOrderL ∧
      preferOrderL.indexOf b.engine < preferOrderL.indexOf a.engine) :
    merge_and_dedupe [a, b] = [b] := by
  rw [merge_and_dedupe, List.foldl_cons, List.foldl_cons, List.foldl_nil]
  have e1 : mergeStep ([], []) a = ([(k, a)], [a]) := by
    simp [mergeStep, hka, lookupA]
  rw [e1]
  have e2 : lookupA k [(k, a)] = some a := by simp [lookupA]
  simp only [mergeStep, hkb, e2]
  rw [if_pos hcond]
  simp [replaceOrdered, hka]

theorem merge_pair_keep {a b : Hit} {k : String × String × String}
    (hka : hitKey a = some k) (hkb : hitKey b = some k)
    (hcond : ¬ (b.engine ∈ preferOrderL ∧ a.engine ∈ preferOrderL ∧
      preferOrderL.indexOf b.engine < preferOrderL.indexOf a.engine)) :
    merge_and_dedupe [a, b] = [a] := by
  rw [merge_and_dedupe, List.foldl_cons, List.foldl_cons, List.foldl_nil]
  have e1 : mergeStep ([], []) a = ([(k, a)], [a]) := by
    simp [mergeStep, hka, lookupA]
  rw [e1]
  have e2 : lookupA k [(k, a)] = some a := by simp [lookupA]
  simp only [mergeStep, hkb, e2]
  rw [if_neg hcond]

/-! Lemmas towards idempotence of the merge. -/

theorem filterMap_hitKey_mergeByKey (hits : List Hit) :
    (mergeByKey hits).filterMap hitKey = keyList hits := by
  unfold mergeByKey
  have haux : ∀ (ks : List (String × String × String)),
      (∀ k ∈ ks, hitKey (keptFor hits k) = some k) →
      (ks.map (keptFor hits)).filterMap hitKey = ks := by
    intro ks
    induction ks with
    | nil => intro _; rfl
    | cons k ks ih =>
      intro hall
      rw [List.map_cons,
        List.filterMap_cons_some (hall k (List.mem_cons_self _ _)),
        ih (fun x hx => hall x (List.mem_cons_of_mem _ hx))]
  exact haux _ (fun k hk => hitKey_keptFor ((keyList_mem_iff hits k).mp hk))

theorem mem_mergeByKey_key {hits : List Hit} {x : Hit} (hx : x ∈ mergeByKey hits) :
    ∃ k, hitKey x = some k := by
  unfold mergeByKey at hx
  rcases List.mem_map.mp hx with ⟨k, hk, rfl⟩
  exact ⟨k, hitKey_keptFor ((keyList_mem_iff hits k).mp hk)⟩

theorem mergeByKey_of_nodupKeys : ∀ (l : List Hit),
    (∀ x ∈ l, ∃ k, hitKey x = some k) → (l.filterMap hitKey).Nodup →
    mergeByKey l = l := by
  intro l
  induction l with
  | nil => intro _ _; rfl
  | cons h t ih =>
    intro hall hnd0
    rcases hall h (List.mem_cons_self _ _) with ⟨k, hk⟩
    have hnd : (k :: t.filterMap hitKey).Nodup := by
      rw [← List.filterMap_cons_some hk]
      exact hnd0
    have hknotin : k ∉ t.filterMap hitKey := (List.nodup_cons.mp hnd).1
    have hndt : (t.filterMap hitKey).Nodup := (List.nodup_cons.mp hnd).2
    have htnil : hitsFor t k = [] := by
      by_contra hc
      rcases List.exists_mem_of_ne_nil _ hc with ⟨x, hx⟩
      have hxk := mem_hitsFor_key hx
      have hxmem : x ∈ t := by
        rw [hitsFor, List.mem_filter] at hx
        exact hx.1
      exact hknotin (List.mem_filterMap.mpr ⟨x, hxmem, hxk⟩)
    have hkl : keyList (h :: t) = k :: t.filterMap hitKey := by
      rw [keyList, List.filterMap_cons_some hk]
      exact dedupF_of_nodup hnd
    rw [mergeByKey, hkl, List.map_cons]
    have hhead : keptFor (h :: t) k = h := by
      unfold keptFor
      have hsplit : hitsFor (h :: t) k = [h] := by
        rw [hitsFor, List.filter_cons]
        have hdec : decide (hitKey h = some k) = true := by simp [hk]
        rw [hdec]
        simp only [if_true]
        have : List.filter (fun x => decide (hitKey x = some k)) t = hitsFor t k := rfl
        rw [this, htnil]
      rw [hsplit]
      rfl
    rw [hhead]
    have htail : (t.filterMap hitKey).map (keptFor (h :: t)) = t := by
      have e1 : ∀ k' ∈ t.filterMap hitKey, keptFor (h :: t) k' = keptFor t k' := by
        intro k' hk'
        have hne : ¬ (hitKey h = some k') := by
          rw [hk]
          intro hc
          exact hknotin ((Option.some.inj hc) ▸ hk')
        unfold keptFor
        have hsame : hitsFor (h :: t) k' = hitsFor t k' := by
          rw [hitsFor, List.filter_cons]
          have hdec : decide (hitKey h = some k') = false := by simp [hne]
          rw [hdec]
          simp only [Bool.false_eq_true, if_false]
          rfl
        rw [hsame]
      rw [List.map_congr_left e1]
      have hklt : keyList t = t.filterMap hitKey := by
        rw [keyList]
        exact dedupF_of_nodup hndt
      rw [← hklt]
      exact ih (fun x hx => hall x (List.mem_cons_of_mem _ hx)) hndt
    rw [htail]

/-! Order lemmas for `pySorted`. -/

theorem lexLe_total : ∀ (a b : List Char), lexLe a b = true ∨ lexLe b a = true := by
  intro a
  induction a with
  | nil => intro b; left; rfl
  | cons x xs ih =>
    intro b
    cases b with
    | nil => right; rfl
    | cons y ys =>
      rcases lt_trichotomy x y with h | h | h
      · left; simp [lexLe, h]
      · subst h
        rcases ih ys with hl | hl
        · left; simp [lexLe, lt_irrefl, hl]
        · right; simp [lexLe, lt_irrefl, hl]
      · right; simp [lexLe, h]

theorem lexLe_trans : ∀ {a b c : List Char},
    lexLe a b = true → lexLe b c = true → lexLe a c = true := by
  intro a
  induction a with
  | nil => intro b c _ _; rfl
  | cons x xs ih =>
    intro b c hab hbc
    cases b with
    | nil => rw [lexLe] at hab; cases hab
    | cons y ys =>
      cases c with
      | nil => rw [lexLe] at hbc; cases hbc
      | cons z zs =>
        by_cases h1 : x < y
        · by_cases h2 : y < z
          · have h3 : x < z := lt_trans h1 h2
            simp [lexLe, h3]
          · by_cases h3 : z < y
            · rw [lexLe, if_neg h2, if_pos h3] at hbc; cases hbc
            · have hyz : y = z := le_antisymm (not_lt.mp h3) (not_lt.mp h2)
              subst hyz
              simp [lexLe, h1]
        · by_cases h4 : y < x
          · rw [lexLe, if_neg h1, if_pos h4] at hab; cases hab
          · have hxy : x = y := le_antisymm (not_lt.mp h4) (not_lt.mp h1)
            subst hxy
            rw [lexLe, if_neg (lt_irrefl x), if_neg (lt_irrefl x)] at hab
            by_cases h2 : x < z
            · simp [lexLe, h2]
            · by_cases h3 : z < x
              · rw [lexLe, if_neg h2, if_pos h3] at hbc; cases hbc
              · have hxz : x = z := le_antisymm (not_lt.mp h3) (not_lt.mp h2)
                subst hxz
                rw [lexLe, if_neg (lt_irrefl x), if_neg (lt_irrefl x)] at hbc
                rw [lexLe, if_neg (lt_irrefl x), if_neg (lt_irrefl x)]
                exact ih hab hbc

theorem strLe_total (a b : String) : strLe a b = true ∨ strLe b a = true :=
  lexLe_total a.data b.data

theorem strLe_trans {a b c : String} (h1 : strLe a b = true) (h2 : strLe b c = true) :
    strLe a c = true :=
  lexLe_trans h1 h2

theorem mem_insertS (a x : String) : ∀ (l : List String),
    a ∈ insertS x l ↔ a = x ∨ a ∈ l := by
  intro l
  induction l with
  | nil => simp [insertS]
  | cons y ys ih =>
    rw [insertS]
    by_cases h : strLe x y = true
    · rw [if_pos h]
      simp [List.mem_cons]
    · rw [if_neg h]
      rw [List.mem_cons, ih, List.mem_cons]
      tauto

theorem insertS_perm (x : String) : ∀ (l : List String),
    (insertS x l).Perm (x :: l) := by
  intro l
  induction l with
  | nil => exact List.Perm.refl _
  | cons y ys ih =>
    rw [insertS]
    by_cases h : strLe x y = true
    · rw [if_pos h]
    · rw [if_neg h]
      exact (ih.cons y).trans (List.Perm.swap x y ys)

theorem pySorted_perm : ∀ (l : List String), (pySorted l).Perm l := by
  intro l
  induction l with
  | nil => exact List.Perm.refl _
  | cons x xs ih =>
    rw [pySorted, List.foldr_cons]
    exact (insertS_perm x _).trans (ih.cons x)

theorem pairwise_insertS (x : String) : ∀ (l : List String),
    l.Pairwise (fun a b => strLe a b = true) →
    (insertS x l).Pairwise (fun a b => strLe a b = true) := by
  intro l
  induction l with
  | nil => intro _; simp [insertS]
  | cons y ys ih =>
    intro hp
    rw [insertS]
    by_cases h : strLe x y = true
    · rw [if_pos h]
      refine List.Pairwise.cons ?_ hp
      intro b hb
      rcases List.mem_cons.mp hb with rfl | hbys
      · exact h
      · exact strLe_trans h ((List.pairwise_cons.mp hp).1 b hbys)
    · rw [if_neg h]
      have hyx : strLe y x = true := (strLe_total x y).resolve_left h
      refine List.Pairwise.cons ?_ (ih (List.pairwise_cons.mp hp).2)
      intro b hb
      rcases (mem_insertS b x ys).mp hb with rfl | hbys
      · exact hyx
      · exact (List.pairwise_cons.mp hp).1 b hbys

theorem pySorted_pairwise : ∀ (l : List String),
    (pySorted l).Pairwise (fun a b => strLe a b = true) := by
  intro l
  induction l with
  | nil => simp [pySorted]
  | cons x xs ih =>
    rw [pySorted, List.foldr_cons]
    exact pairwise_insertS x _ ih

theorem pySorted_nodup {l : List String} (h : l.Nodup) : (pySorted l).Nodup :=
  ((pySorted_perm l).nodup_iff).mpr h

theorem mem_pySorted (a : String) (l : List String) : a ∈ pySorted l ↔ a ∈ l :=
  (pySorted_perm l).mem_iff

theorem mem_extract_emails (e : String) (text : String) :
    e ∈ extract_emails_from_text text ↔
      e ∈ emailFindall text ∧ keepEmail e = true := by
  rw [extract_emails_from_text, mem_pySorted, mem_dedupF, List.mem_filter]

/-! Lemmas about the verification loop of `crawl_for_emails`. -/

theorem verifyFold_emails (mx : String → Bool) (do_mx : Bool) :
    ∀ (es : List String) (acc : List String × String),
      (es.foldl (verifyFold mx do_mx) acc).1 =
        acc.1 ++ es.filter (fun e => (verify_email mx e do_mx).1) := by
  intro es
  induction es with
  | nil => intro acc; simp
  | cons e es ih =>
    intro acc
    rw [List.foldl_cons, ih, List.filter_cons]
    by_cases h : (verify_email mx e do_mx).1 = true
    · have hv : verifyFold mx do_mx acc e =
          (acc.1 ++ [e],
           if (verify_email mx e do_mx).2 ≠ "" then (verify_email mx e do_mx).2 else acc.2) := by
        rw [verifyFold, if_pos h]
      rw [hv]
      simp [h]
    · have hv : verifyFold mx do_mx acc e = acc := by
        rw [verifyFold, if_neg h]
      rw [hv]
      simp [h]

theorem verifyFold_of_none (mx : String → Bool) (do_mx : Bool) :
    ∀ (es : List String) (acc : List String × String),
      (∀ e ∈ es, (verify_email mx e do_mx).1 = false) →
      es.foldl (verifyFold mx do_mx) acc = acc := by
  intro es
  induction es with
  | nil => intro acc _; rfl
  | cons e es ih =>
    intro acc hall
    rw [List.foldl_cons]
    have hv : verifyFold mx do_mx acc e = acc := by
      rw [verifyFold,
        if_neg (by rw [hall e (List.mem_cons_self _ _)]; exact Bool.false_ne_true)]
    rw [hv]
    exact ih acc (fun x hx => hall x (List.mem_cons_of_mem _ hx))

/-! The company-name extractor agrees with the specification's description
(amended fallback). -/

theorem firstSelectorText_eq (els : List (Option PageElem)) :
    firstSelectorText els =
      (els.filterMap (fun oe => oe.bind (fun el =>
        if pyStrip (elemText el) = "" then none
        else some (pyStrip (elemText el))))).head?.map (fun t => t.take 120) := by
  induction els with
  | nil => rfl
  | cons oe rest ih =>
    cases oe with
    | none =>
      rw [firstSelectorText, List.filterMap_cons]
      exact ih
    | some el =>
      rw [firstSelectorText, List.filterMap_cons]
      by_cases h : pyStrip (elemText el) = ""
      · rw [if_neg (fun hc => hc h)]
        have hb : (some el).bind (fun el =>
            if pyStrip (elemText el) = "" then none
            else some (pyStrip (elemText el))) = none := by
          simp only [Option.some_bind]
          rw [if_pos h]
        rw [hb]
        exact ih
      · rw [if_pos h]
        have hb : (some el).bind (fun el =>
            if pyStrip (elemText el) = "" then none
            else some (pyStrip (elemText el))) = some (pyStrip (elemText el)) := by
          simp only [Option.some_bind]
          rw [if_neg h]
        rw [hb]
        rfl

theorem company_name_eq (doc : Option PageDoc) (url : String) :
    extract_company_name doc url = spec_company_name doc url := by
  have hfb : (if domain url ≠ "" then String.mk (removeWWW (domain url).data) else "") =
      (if domain url = "" then "" else String.mk (removeWWW (domain url).data)) := by
    by_cases hd : domain url = ""
    · rw [if_neg (fun hc => hc hd), if_pos hd]
    · rw [if_pos hd, if_neg hd]
  cases doc with
  | none =>
    simp only [extract_company_name, spec_company_name, List.filterMap_nil]
    exact hfb
  | some d =>
    simp only [extract_company_name, spec_company_name]
    rw [firstSelectorText_eq]
    cases hc : List.filterMap (fun oe => oe.bind (fun el =>
        if pyStrip (elemText el) = "" then none
        else some (pyStrip (elemText el)))) [d.ogSiteName, d.ogTitle, d.h1, d.titleTag] with
    | nil => exact hfb
    | cons t rest => rfl

/-! Lemmas for the contact-page set. -/

theorem likelyPagesSet_nodup {base : String} {anchors ps : List String}
    (h : likelyPagesSet base anchors = some ps) : ps.Nodup := by
  unfold likelyPagesSet at h
  split at h
  · rw [Option.some.injEq] at h
    rw [← h]
    exact nodup_dedupF _
  · cases h

/-! Claim theorems. -/

/-- C1: `merge_and_dedupe` groups hits by the normalized (scheme, lowercased
host, path) key; the first occurrence of each key fixes the kept hit's
position, and a later duplicate replaces it exactly when its engine is
strictly earlier in the precedence order (duckduckgo, bing, google) - stated
for hit lists whose engines all belong to the precedence tuple, which is
where "strictly earlier in the precedence order" is defined.  In
particular, for two hits with identical key and engines "bing" and
"duckduckgo", the merge keeps the "duckduckgo" hit regardless of input
order. -/
theorem claim_C1_merge_precedence (hits : List Hit) (a b : Hit)
    (k : String × String × String)
    (hmem : ∀ x ∈ hits, x.engine ∈ preferOrderL)
    (hka : hitKey a = some k) (hkb : hitKey b = some k)
    (hea : a.engine = "bing") (heb : b.engine = "duckduckgo") :
    merge_and_dedupe hits = mergeSpec hits ∧
    merge_and_dedupe [a, b] = [b] ∧ merge_and_dedupe [b, a] = [b] := by
  refine ⟨?_, ?_, ?_⟩
  · rw [merge_eq_mergeByKey]
    exact mergeByKey_eq_mergeSpec hmem
  · refine merge_pair_replace hka hkb ?_
    rw [hea, heb]
    exact ⟨by decide, by decide, by decide⟩
  · refine merge_pair_keep hkb hka ?_
    rw [hea, heb]
    decide

/-- Witness for C1 at concrete hits sharing the key ("http", "x.com", "/a"). -/
theorem claim_C1_witness :
    merge_and_dedupe [⟨"t", "http://x.com/a", "bing"⟩, ⟨"u", "http://x.com/a", "duckduckgo"⟩] =
      mergeSpec [⟨"t", "http://x.com/a", "bing"⟩, ⟨"u", "http://x.com/a", "duckduckgo"⟩] ∧
    merge_and_dedupe [⟨"t", "http://x.com/a", "bing"⟩, ⟨"u", "http://x.com/a", "duckduckgo"⟩] =
      [⟨"u", "http://x.com/a", "duckduckgo"⟩] ∧
    merge_and_dedupe [⟨"u", "http://x.com/a", "duckduckgo"⟩, ⟨"t", "http://x.com/a", "bing"⟩] =
      [⟨"u", "http://x.com/a", "duckduckgo"⟩] :=
  claim_C1_merge_precedence
    [⟨"t", "http://x.com/a", "bing"⟩, ⟨"u", "http://x.com/a", "duckduckgo"⟩]
    ⟨"t", "http://x.com/a", "bing"⟩ ⟨"u", "http://x.com/a", "duckduckgo"⟩
    ("http", "x.com", "/a") (by decide) rfl rfl rfl rfl

/-- C2: after the verification loop of `crawl_for_emails`, if at least one
email verifies the sorted verified emails are returned with the flag true,
otherwise the full unverified list is returned with the flag false; the
phone is passed through, and with no verified email the mx domain is empty.
Concretely, for emails `a@x.com` and `bad-syntax` with MX verification
off, the result is `(["a@x.com"], phone, true, "")`. -/
theorem claim_C2_crawl_verification (mx : String → Bool) (do_mx : Bool)
    (emails_list : List String) (phone : String) :
    ((emails_list.filter (fun e => (verify_email mx e do_mx).1) ≠ [] →
        (crawl_verify mx do_mx emails_list phone).1 =
          pySorted (emails_list.filter (fun e => (verify_email mx e do_mx).1)) ∧
        (crawl_verify mx do_mx emails_list phone).2.1 = phone ∧
        (crawl_verify mx do_mx emails_list phone).2.2.1 = true) ∧
      (emails_list.filter (fun e => (verify_email mx e do_mx).1) = [] →
        crawl_verify mx do_mx emails_list phone = (emails_list, phone, false, ""))) ∧
    crawl_verify mx false ["a@x.com", "bad-syntax"] phone =
      (["a@x.com"], phone, true, "") := by
  have hv1 : (emails_list.foldl (verifyFold mx do_mx) ([], "")).1 =
      emails_list.filter (fun e => (verify_email mx e do_mx).1) := by
    rw [verifyFold_emails]
    simp
  refine ⟨⟨?_, ?_⟩, ?_⟩
  · intro hne
    simp only [crawl_verify]
    rw [hv1, if_pos hne]
    exact ⟨rfl, rfl, rfl⟩
  · intro hnil
    have hall : ∀ e ∈ emails_list, (verify_email mx e do_mx).1 = false := by
      intro e he
      have := List.filter_eq_nil_iff.mp hnil e he
      simpa using this
    simp only [crawl_verify]
    rw [verifyFold_of_none mx do_mx emails_list ([], "") hall]
    rw [if_neg (by simp)]
  · rfl

/-- Witness for C2 with the MX toggle on and an oracle accepting every
domain: only the syntactically valid address survives and its MX domain is
reported. -/
theorem claim_C2_witness :
    (crawl_verify (fun _ => true) true ["a@x.com", "bad-syntax"] "p").1 = ["a@x.com"] ∧
    (crawl_verify (fun _ => true) true ["a@x.com", "bad-syntax"] "p").2.2.1 = true := by
  have h := (claim_C2_crawl_verification (fun _ => true) true ["a@x.com", "bad-syntax"] "p").1.1
    (by decide)
  exact ⟨h.1, h.2.2⟩

/-- C3 (counterexample): on the spec's example input the extractor does not
return only `sales@example.com`; the regex match stops at
`logo@cdn.example.com`, which does not end in an image extension and is
therefore kept. -/
theorem claim_C3_counterexample :
    extract_emails_from_text "contact: sales@example.com, see logo@cdn.example.com/logo.png" ≠
      ["sales@example.com"] := by
  have h : extract_emails_from_text
      "contact: sales@example.com, see logo@cdn.example.com/logo.png" =
      ["logo@cdn.example.com", "sales@example.com"] := rfl
  rw [h]
  decide

/-- C3 (amended): `extract_emails_from_text` returns the regex matches with
duplicates removed, sorted, keeping exactly the matches that do not end in
an image extension; on the example input it returns
`logo@cdn.example.com` and `sales@example.com`. -/
theorem claim_C3_email_extraction (text : String) :
    (extract_emails_from_text text).Pairwise (fun a b => strLe a b = true) ∧
    (extract_emails_from_text text).Nodup ∧
    (∀ e, e ∈ extract_emails_from_text text ↔
      e ∈ emailFindall text ∧ keepEmail e = true) ∧
    extract_emails_from_text "contact: sales@example.com, see logo@cdn.example.com/logo.png" =
      ["logo@cdn.example.com", "sales@example.com"] := by
  refine ⟨pySorted_pairwise _, pySorted_nodup (nodup_dedupF _), ?_, rfl⟩
  intro e
  exact mem_extract_emails e text

/-- C4: the robots checker is fail-open - whenever the fetched robots
content is empty (which includes every failed or raising fetch) or the
parser/can-fetch step raises, `is_allowed_by_robots` answers true; and on a
cache miss a raising network fetch yields empty content. -/
theorem claim_C4_robots_fail_open (cached : Option (String × Int)) (now : Int)
    (net : Option (Bool × String)) (canFetch : String → String → Option Bool)
    (url : String)
    (hfail : fetch_robots_for_host cached now net = "" ∨
      canFetch (fetch_robots_for_host cached now net) url = none) :
    is_allowed_by_robots cached now net canFetch url = true ∧
    (robots_cache_valid cached now = false → fetch_robots_for_host cached now none = "") := by
  constructor
  · simp only [is_allowed_by_robots]
    by_cases hc : fetch_robots_for_host cached now net = ""
    · rw [if_pos hc]
    · rcases hfail with hf | hf
      · exact absurd hf hc
      · rw [if_neg hc, hf]
  · intro hv
    simp [fetch_robots_for_host, hv, netText]

/-- Witness for C4: no cache row, a raising fetch and a denying parser
oracle still yield an allow. -/
theorem claim_C4_witness :
    is_allowed_by_robots none 0 none (fun _ _ => some false) "https://x.com/" = true :=
  (claim_C4_robots_fail_open none 0 none (fun _ _ => some false) "https://x.com/"
    (Or.inl rfl)).1

/-- C5 (counterexample): a robots cache row with empty content and
timestamp 100 is read at `t + TTL - 1`, i.e. within the TTL window, yet the
code treats it as a miss and refetches - the claim's "read at t + TTL - 1
is a cache hit" fails for it. -/
theorem claim_C5_counterexample :
    robots_cache_valid (some ("", 100)) (100 + CACHE_TTL_SECONDS - 1) = false ∧
    (100 + CACHE_TTL_SECONDS - 1) - 100 < CACHE_TTL_SECONDS ∧
    fetch_robots_for_host (some ("", 100)) (100 + CACHE_TTL_SECONDS - 1)
      (some (true, "X")) = "X" := by
  refine ⟨rfl, by decide, rfl⟩

/-- C5 (amended): for cache rows with a nonzero timestamp - and, on the
page and robots paths, nonempty content - a read at `t + TTL - 1` is a hit
(no refetch) and a read at `t + TTL + 1` is a miss (the network outcome is
used); the freshness test `now - ts < TTL` with the 7-day TTL is the same
on all three read paths. -/
theorem claim_C5_cache_ttl (html content phone : String) (es : List String) (t : Int)
    (net : Option (Bool × String))
    (hh : html ≠ "") (hc : content ≠ "") (ht : t ≠ 0) :
    page_cache_valid (some (html, t)) (t + CACHE_TTL_SECONDS - 1) = true ∧
    page_cache_valid (some (html, t)) (t + CACHE_TTL_SECONDS + 1) = false ∧
    robots_cache_valid (some (content, t)) (t + CACHE_TTL_SECONDS - 1) = true ∧
    robots_cache_valid (some (content, t)) (t + CACHE_TTL_SECONDS + 1) = false ∧
    emails_cache_valid (some (es, phone, t)) (t + CACHE_TTL_SECONDS - 1) = true ∧
    emails_cache_valid (some (es, phone, t)) (t + CACHE_TTL_SECONDS + 1) = false ∧
    safe_get (some (html, t)) (t + CACHE_TTL_SECONDS - 1) net = some (true, html) ∧
    safe_get (some (html, t)) (t + CACHE_TTL_SECONDS + 1) net = net ∧
    fetch_robots_for_host (some (content, t)) (t + CACHE_TTL_SECONDS - 1) net = content ∧
    fetch_robots_for_host (some (content, t)) (t + CACHE_TTL_SECONDS + 1) net =
      netText net := by
  have hlt : t + CACHE_TTL_SECONDS - 1 - t < CACHE_TTL_SECONDS := by omega
  have hge : ¬ (t + CACHE_TTL_SECONDS + 1 - t < CACHE_TTL_SECONDS) := by omega
  have hp1 : page_cache_valid (some (html, t)) (t + CACHE_TTL_SECONDS - 1) = true := by
    simp [page_cache_valid, hh, ht, hlt]
  have hp2 : page_cache_valid (some (html, t)) (t + CACHE_TTL_SECONDS + 1) = false := by
    simp [page_cache_valid, hge]
  have hr1 : robots_cache_valid (some (content, t)) (t + CACHE_TTL_SECONDS - 1) = true := by
    simp [robots_cache_valid, hc, ht, hlt]
  have hr2 : robots_cache_valid (some (content, t)) (t + CACHE_TTL_SECONDS + 1) = false := by
    simp [robots_cache_valid, hge]
  refine ⟨hp1, hp2, hr1, hr2, ?_, ?_, ?_, ?_, ?_, ?_⟩
  · simp [emails_cache_valid, ht, hlt]
  · simp [emails_cache_valid, hge]
  · simp [safe_get, hp1]
  · simp [safe_get, hp2]
  · simp [fetch_robots_for_host, hr1]
  · simp [fetch_robots_for_host, hr2]

/-- Witness for C5 at concrete cache rows. -/
theorem claim_C5_witness :
    page_cache_valid (some ("<p>", 1000)) (1000 + CACHE_TTL_SECONDS - 1) = true ∧
    page_cache_valid (some ("<p>", 1000)) (1000 + CACHE_TTL_SECONDS + 1) = false ∧
    robots_cache_valid (some ("User-agent: *", 1000))
      (1000 + CACHE_TTL_SECONDS - 1) = true ∧
    robots_cache_valid (some ("User-agent: *", 1000))
      (1000 + CACHE_TTL_SECONDS + 1) = false ∧
    emails_cache_valid (some ([], "", 1000)) (1000 + CACHE_TTL_SECONDS - 1) = true ∧
    emails_cache_valid (some ([], "", 1000)) (1000 + CACHE_TTL_SECONDS + 1) = false ∧
    safe_get (some ("<p>", 1000)) (1000 + CACHE_TTL_SECONDS - 1) none =
      some (true, "<p>") ∧
    safe_get (some ("<p>", 1000)) (1000 + CACHE_TTL_SECONDS + 1) none = none ∧
    fetch_robots_for_host (some ("User-agent: *", 1000))
      (1000 + CACHE_TTL_SECONDS - 1) none = "User-agent: *" ∧
    fetch_robots_for_host (some ("User-agent: *", 1000))
      (1000 + CACHE_TTL_SECONDS + 1) none = netText none :=
  claim_C5_cache_ttl "<p>" "User-agent: *" "" [] 1000 none (by decide) (by decide)
    (by decide)

/-- C6: the domain filter rejects an empty extracted host, rejects any host
ending in a deny-list suffix (deny takes precedence over allow), accepts by
allow-suffix match when the allow list is nonempty, and accepts otherwise;
the two concrete examples of the specification hold. -/
theorem claim_C6_domain_filter (deny allow : List String) (url : String) :
    ((domain url = "" → is_allowed_by_lists deny allow url = false) ∧
     ((∃ d ∈ deny, strEndsWith (domain url) d = true) →
        is_allowed_by_lists deny allow url = false) ∧
     (domain url ≠ "" → (∀ d ∈ deny, strEndsWith (domain url) d = false) → allow ≠ [] →
        is_allowed_by_lists deny allow url =
          allow.any (fun d => strEndsWith (domain url) d)) ∧
     (domain url ≠ "" → (∀ d ∈ deny, strEndsWith (domain url) d = false) → allow = [] →
        is_allowed_by_lists deny allow url = true)) ∧
    is_allowed_by_lists ["facebook.com"] ["example.com"] "https://facebook.com/x" = false ∧
    is_allowed_by_lists ["facebook.com"] ["example.com"] "https://sub.example.com" = true := by
  refine ⟨⟨?_, ?_, ?_, ?_⟩, rfl, rfl⟩
  · intro h
    simp only [is_allowed_by_lists]
    rw [if_pos h]
  · rintro ⟨d, hd, hsuf⟩
    simp only [is_allowed_by_lists]
    by_cases h0 : domain url = ""
    · rw [if_pos h0]
    · rw [if_neg h0, if_pos (List.any_eq_true.mpr ⟨d, hd, hsuf⟩)]
  · intro h0 hdeny hne
    simp only [is_allowed_by_lists]
    rw [if_neg h0,
      if_neg (by rw [List.any_eq_true]; rintro ⟨d, hd, hsuf⟩; rw [hdeny d hd] at hsuf; cases hsuf),
      if_pos hne]
  · intro h0 hdeny hnil
    simp only [is_allowed_by_lists]
    rw [if_neg h0,
      if_neg (by rw [List.any_eq_true]; rintro ⟨d, hd, hsuf⟩; rw [hdeny d hd] at hsuf; cases hsuf),
      if_neg (by rw [hnil]; exact fun hc => hc rfl)]

/-- Witness for C6: the deny rule applied at a concrete URL with no allow
list. -/
theorem claim_C6_witness :
    is_allowed_by_lists ["facebook.com"] [] "https://facebook.com/x" = false :=
  (claim_C6_domain_filter ["facebook.com"] [] "https://facebook.com/x").1.2.1
    ⟨"facebook.com", by decide, by decide⟩

/-- C7: `merge_and_dedupe` is idempotent. -/
theorem claim_C7_merge_idempotent (hits : List Hit) :
    merge_and_dedupe (merge_and_dedupe hits) = merge_and_dedupe hits := by
  rw [merge_eq_mergeByKey hits, merge_eq_mergeByKey (mergeByKey hits)]
  refine mergeByKey_of_nodupKeys _ (fun x hx => mem_mergeByKey_key hx) ?_
  rw [filterMap_hitKey_mergeByKey]
  exact nodup_keyList hits

/-- C8 (counterexample): with no usable page element, the fallback for host
`sub.www.example.com` is `sub.example.com` - the interior `www.` is removed
too, not only a leading occurrence. -/
theorem claim_C8_counterexample :
    extract_company_name (some ⟨none, none, none, none⟩) "https://sub.www.example.com/" =
      "sub.example.com" ∧
    "sub.example.com" ≠ "sub.www.example.com" :=
  ⟨rfl, by decide⟩

/-- C8 (amended): `extract_company_name` returns the first of site-name
metadata, title metadata, first h1, document title whose trimmed text is
nonempty, truncated to 120 characters, and otherwise falls back to the
URL's host with every occurrence of `www.` removed - as captured by
`spec_company_name`. -/
theorem claim_C8_company_name (doc : Option PageDoc) (url : String) :
    extract_company_name doc url = spec_company_name doc url ∧
    extract_company_name (some ⟨none, none, none, none⟩) "https://sub.www.example.com/" =
      "sub.example.com" :=
  ⟨company_name_eq doc url, rfl⟩

/-- C9 (counterexample): with seven matching anchors the collected set has
ten distinct URLs; under the set enumeration that lists the anchor-derived
URLs first - a possible iteration order of the Python set - the returned
six pages do not contain the fallback `/contact` page, refuting "always
also includes the fixed fallback suffixes". -/
theorem claim_C9_counterexample :
    likelyPagesSet "http://e.com"
        ["/contact1", "/contact2", "/contact3", "/contact4", "/contact5", "/contact6",
         "/contact7"] =
      some ["http://e.com/contact1", "http://e.com/contact2", "http://e.com/contact3",
            "http://e.com/contact4", "http://e.com/contact5", "http://e.com/contact6",
            "http://e.com/contact7", "http://e.com/contact", "http://e.com/contact-us",
            "http://e.com/about"] ∧
    find_likely_contact_pages "http://e.com"
        ["/contact1", "/contact2", "/contact3", "/contact4", "/contact5", "/contact6",
         "/contact7"]
        ["http://e.com/contact1", "http://e.com/contact2", "http://e.com/contact3",
         "http://e.com/contact4", "http://e.com/contact5", "http://e.com/contact6",
         "http://e.com/contact7", "http://e.com/contact", "http://e.com/contact-us",
         "http://e.com/about"] =
      some ["http://e.com/contact1", "http://e.com/contact2", "http://e.com/contact3",
            "http://e.com/contact4", "http://e.com/contact5", "http://e.com/contact6"] ∧
    "http://e.com/contact" ∈
      ["http://e.com/contact1", "http://e.com/contact2", "http://e.com/contact3",
       "http://e.com/contact4", "http://e.com/contact5", "http://e.com/contact6",
       "http://e.com/contact7", "http://e.com/contact", "http://e.com/contact-us",
       "http://e.com/about"] ∧
    "http://e.com/contact" ∉
      ["http://e.com/contact1", "http://e.com/contact2", "http://e.com/contact3",
       "http://e.com/contact4", "http://e.com/contact5", "http://e.com/contact6"] := by
  refine ⟨rfl, rfl, by decide, by decide⟩

/-- C9 (amended): for any enumeration of the collected set,
`find_likely_contact_pages` returns at most six pages, unique by resolved
URL, all drawn from the set of matching-anchor resolutions plus the three
fallback suffixes; and whenever that set has at most six elements the
result contains exactly the set (in particular all three fallbacks). -/
theorem claim_C9_contact_pages (base : String) (anchors : List String)
    (enum ps : List String) (hps : likelyPagesSet base anchors = some ps)
    (hperm : enum.Perm ps) :
    find_likely_contact_pages base anchors enum = some (enum.take 6) ∧
    (enum.take 6).length ≤ 6 ∧
    (enum.take 6).Nodup ∧
    (∀ x ∈ enum.take 6, x ∈ ps) ∧
    (ps.length ≤ 6 → ∀ x, x ∈ enum.take 6 ↔ x ∈ ps) := by
  have hnd : ps.Nodup := likelyPagesSet_nodup hps
  have hnde : enum.Nodup := (hperm.nodup_iff).mpr hnd
  refine ⟨?_, ?_, ?_, ?_, ?_⟩
  · rw [find_likely_contact_pages, hps]
  · exact List.length_take_le _ _
  · exact hnde.sublist (List.take_sublist _ _)
  · intro x hx
    exact hperm.mem_iff.mp (List.take_subset _ _ hx)
  · intro hlen x
    have hel : enum.length = ps.length := hperm.length_eq
    have htk : enum.take 6 = enum := List.take_of_length_le (by omega)
    rw [htk, hperm.mem_iff]

/-- Witness for C9: a single matching anchor gives a four-element set, all
of which (fallbacks included) are returned. -/
theorem claim_C9_witness :
    find_likely_contact_pages "http://e.com" ["about.html"]
        ["http://e.com/about.html", "http://e.com/contact", "http://e.com/contact-us",
         "http://e.com/about"] =
      some ["http://e.com/about.html", "http://e.com/contact", "http://e.com/contact-us",
            "http://e.com/about"] ∧
    (["http://e.com/about.html", "http://e.com/contact", "http://e.com/contact-us",
      "http://e.com/about"].take 6).Nodup := by
  have h := claim_C9_contact_pages "http://e.com" ["about.html"]
    ["http://e.com/about.html", "http://e.com/contact", "http://e.com/contact-us",
     "http://e.com/about"]
    ["http://e.com/about.html", "http://e.com/contact", "http://e.com/contact-us",
     "http://e.com/about"] rfl (List.Perm.refl _)
  exact ⟨h.1, h.2.2.1⟩

/-- C10: in `merge_and_dedupe`, a duplicate never replaces the kept hit
unless both engines are members of the precedence tuple: the replacement
rule `mergeKeep` keeps the previous hit whenever either engine is outside
the tuple, and the merge is exactly the per-key fold of that rule, so
unknown-engine hits are deduplicated but never win or lose a precedence
contest. -/
theorem claim_C10_unknown_engine (hits : List Hit) (kept h : Hit)
    (hout : h.engine ∉ preferOrderL ∨ kept.engine ∉ preferOrderL) :
    mergeKeep kept h = kept ∧ merge_and_dedupe hits = mergeByKey hits := by
  constructor
  · unfold mergeKeep
    rcases hout with h1 | h1
    · rw [if_neg (fun hc => h1 hc.1)]
    · rw [if_neg (fun hc => h1 hc.2.1)]
  · exact merge_eq_mergeByKey hits

/-- Witness for C10: a kept hit from a stub engine survives a later
duckduckgo duplicate. -/
theorem claim_C10_witness :
    mergeKeep ⟨"u", "http://x.com/a", "stub"⟩ ⟨"t", "http://x.com/a", "duckduckgo"⟩ =
      ⟨"u", "http://x.com/a", "stub"⟩ ∧
    merge_and_dedupe [⟨"u", "http://x.com/a", "stub"⟩, ⟨"t", "http://x.com/a", "duckduckgo"⟩] =
      mergeByKey [⟨"u", "http://x.com/a", "stub"⟩, ⟨"t", "http://x.com/a", "duckduckgo"⟩] :=
  claim_C10_unknown_engine
    [⟨"u", "http://x.com/a", "stub"⟩, ⟨"t", "http://x.com/a", "duckduckgo"⟩]
    ⟨"u", "http://x.com/a", "stub"⟩ ⟨"t", "http://x.com/a", "duckduckgo"⟩
    (Or.inr (by decide))

